import Mathlib

/-!
Shallow embedding of `src/analyzer/FourierAnalyzer.cpp` from the
EmpiricalErrorAnalysis repository, together with theorems about its
behaviour.

Modelling conventions:
* C++ `double`/`float` arithmetic is modelled over `ℝ`.  A division whose
  divisor is zero (which produces NaN or ±Inf in IEEE arithmetic, never a
  real number) is modelled by `Option ℝ` with value `none`.
* Arrays indexed by `row * xRes + col` are modelled as functions of the
  cell coordinates.  Each cell of the parallel transform loop is written
  exactly once by exactly one task, so the loop is modelled cell-wise.
* The point sampler, the command-line parser and the file writers are
  external to the analyzer.  When analysing the trial-accumulation loop of
  `RunAnalysis`, the per-trial power spectra produced by the sampled point
  sets are abstracted as an arbitrary family `P : ℕ → ℕ → ℕ → ℝ`
  (sample-count index, trial number, cell index).
-/

open Classical

/-- Modelled from the spec: the constant `twopi` comes from the repository
header `common.h`, which is not part of the analyzer translation unit; the
spec's transform formula uses the factor `2π` in the exponent
`-2π (wx·x_i + wy·y_i)`. -/
noncomputable def twopi : ℝ := 2 * Real.pi

/-- Cell `(row, col)` of the complex spectrum computed by
`FourierAnalyzer::continuous_fourier_spectrum`.  The C++ code computes
`half_xRes = xRes * 0.5` (integer truncation, i.e. `xRes / 2` on naturals),
`wx = (col - half_xRes) * frequencyStep`, `wy = (row - half_yRes) *
frequencyStep`, and accumulates `cos`/`sin` of
`-twopi * (wx * x_i + wy * y_i)` over all points.  The pair returned is
`(real part, imaginary part)`; the TBB loop writes each cell exactly once,
so the whole array is this function of `(row, col)`. -/
noncomputable def continuous_fourier_spectrum (pts : List (ℝ × ℝ))
    (frequencyStep : ℝ) (xRes yRes row col : ℕ) : ℝ × ℝ :=
  let half_xRes : ℕ := xRes / 2
  let half_yRes : ℕ := yRes / 2
  let wx : ℝ := ((col : ℝ) - (half_xRes : ℝ)) * frequencyStep
  let wy : ℝ := ((row : ℝ) - (half_yRes : ℝ)) * frequencyStep
  pts.foldl (fun fxy p =>
    (fxy.1 + Real.cos (-twopi * (wx * p.1 + wy * p.2)),
     fxy.2 + Real.sin (-twopi * (wx * p.1 + wy * p.2)))) (0, 0)

/-- Cell `(row, col)` of `FourierAnalyzer::power_fourier_spectrum`:
`powerVal = (real*real + imag*imag) / _pts.size()`.  When the point set is
empty the C++ division is `0.0 / 0.0`, i.e. IEEE NaN, modelled here by
`none`; otherwise the quotient is an ordinary real number. -/
noncomputable def power_fourier_spectrum (pts : List (ℝ × ℝ))
    (frequencyStep : ℝ) (xRes yRes row col : ℕ) : Option ℝ :=
  let z := continuous_fourier_spectrum pts frequencyStep xRes yRes row col
  if pts.length = 0 then none
  else some ((z.1 * z.1 + z.2 * z.2) / (pts.length : ℝ))

/-- Folding pairwise sums of `f` and `g` over a list equals the pair of
mapped list sums. -/
lemma foldl_add_pair (l : List (ℝ × ℝ)) (f g : ℝ × ℝ → ℝ) (a b : ℝ) :
    l.foldl (fun q p => (q.1 + f p, q.2 + g p)) (a, b) =
      (a + (l.map f).sum, b + (l.map g).sum) := by
  induction l generalizing a b with
  | nil => simp
  | cons x xs ih => simp [ih, add_assoc]

/-- C4: for every point set, every frequency step and every cell
`(row, col)` of the `R × R` grid, the spectral transform produces
`real = Σ_i cos (-2π (wx·x_i + wy·y_i))` and
`imag = Σ_i sin (-2π (wx·x_i + wy·y_i))` with
`wx = (col - R/2) * Δ` and `wy = (row - R/2) * Δ`. -/
theorem continuous_fourier_spectrum_formula (pts : List (ℝ × ℝ))
    (frequencyStep : ℝ) (R row col : ℕ) :
    continuous_fourier_spectrum pts frequencyStep R R row col =
      ((pts.map fun p => Real.cos (-(2 * Real.pi) *
          ((((col : ℝ) - ((R / 2 : ℕ) : ℝ)) * frequencyStep) * p.1 +
           (((row : ℝ) - ((R / 2 : ℕ) : ℝ)) * frequencyStep) * p.2))).sum,
       (pts.map fun p => Real.sin (-(2 * Real.pi) *
          ((((col : ℝ) - ((R / 2 : ℕ) : ℝ)) * frequencyStep) * p.1 +
           (((row : ℝ) - ((R / 2 : ℕ) : ℝ)) * frequencyStep) * p.2))).sum) := by
  unfold continuous_fourier_spectrum twopi
  simp only []
  rw [foldl_add_pair]
  simp

/-- C3: on an empty point set the power-reduction step does not produce a
zero spectrum; at every cell it divides `0.0` by a zero point count, which
is NaN (`none` in this model), in particular not the real value `0`. -/
theorem power_spectrum_empty_pointset_is_nan (frequencyStep : ℝ)
    (xRes yRes row col : ℕ) :
    power_fourier_spectrum [] frequencyStep xRes yRes row col = none ∧
      power_fourier_spectrum [] frequencyStep xRes yRes row col ≠ some 0 := by
  constructor
  · simp [power_fourier_spectrum]
  · simp [power_fourier_spectrum]

/-- Unfloored Euclidean distance from cell `(r, c)` to the grid center
`(halfwidth, halfwidth)`, as computed in
`FourierAnalyzer::compute_radial_mean_powerspectrum`:
`dx = xcenter - c; dy = ycenter - r; distance = sqrt(dx*dx + dy*dy)`. -/
noncomputable def cellDistance (halfwidth r c : ℕ) : ℝ :=
  Real.sqrt (((halfwidth : ℝ) - (c : ℝ)) * ((halfwidth : ℝ) - (c : ℝ)) +
             ((halfwidth : ℝ) - (r : ℝ)) * ((halfwidth : ℝ) - (r : ℝ)))

/-- The C++ guard `if (distance > halfwidth - 1) continue;`: a cell is
skipped exactly when its unfloored distance exceeds `halfwidth - 1`. -/
def cellSkipped (halfwidth r c : ℕ) : Prop :=
  cellDistance halfwidth r c > (halfwidth : ℝ) - 1

/-- Body of the radial double loop for one cell `rc = (r, c)`: the state
is the pair `(radialHistogram, histoCounter)`.  The C++ code computes
`int index = distance` (truncation of the nonnegative distance, i.e.
`Nat.floor`), skips the cell when `distance > halfwidth - 1`, and
otherwise adds the cell's power to `radialHistogram[index]` and increments
`histoCounter[index]`. -/
noncomputable def radialStep (power : ℕ → ℕ → ℝ) (halfwidth : ℕ)
    (acc : (ℕ → ℝ) × (ℕ → ℕ)) (rc : ℕ × ℕ) : (ℕ → ℝ) × (ℕ → ℕ) :=
  if cellSkipped halfwidth rc.1 rc.2 then acc
  else
    (fun i => if i = Nat.floor (cellDistance halfwidth rc.1 rc.2)
              then acc.1 i + power rc.1 rc.2 else acc.1 i,
     fun i => if i = Nat.floor (cellDistance halfwidth rc.1 rc.2)
              then acc.2 i + 1 else acc.2 i)

/-- Row-major list of all grid cells `(r, c)` with `r < yRes`, `c < xRes`:
the traversal order of the nested loops
`for r in [0, yRes) for c in [0, xRes)`. -/
def gridCells (xRes yRes : ℕ) : List (ℕ × ℕ) :=
  (List.range yRes).flatMap fun r => (List.range xRes).map fun c => (r, c)

/-- The pair `(radialHistogram, histoCounter)` after the accumulation
loops of `FourierAnalyzer::compute_radial_mean_powerspectrum`, before the
final division.  Both arrays start zero-initialised; `halfwidth` is
`xRes * 0.5` truncated, and the center is `(halfwidth, halfwidth)`. -/
noncomputable def radialAccum (power : ℕ → ℕ → ℝ) (xRes yRes : ℕ) :
    (ℕ → ℝ) × (ℕ → ℕ) :=
  (gridCells xRes yRes).foldl (radialStep power (xRes / 2))
    (fun _ => 0, fun _ => 0)

/-- Final value of bin `i < halfwidth` after the division loop
`radialHistogram[i] /= double(histoCounter[i])`.  A zero counter would
make this `0.0 / 0.0 = NaN` in IEEE arithmetic, modelled by `none`. -/
noncomputable def radialMeanBin (power : ℕ → ℕ → ℝ) (xRes yRes i : ℕ) :
    Option ℝ :=
  if (radialAccum power xRes yRes).2 i = 0 then none
  else some ((radialAccum power xRes yRes).1 i /
             ((radialAccum power xRes yRes).2 i : ℝ))

/-- `FourierAnalyzer::compute_radial_mean_powerspectrum`: on a non-square
grid it prints a fatal message and calls `exit(-2)` (modelled by
`Except.error`); otherwise it produces the divided radial histogram for
the bins `[0, halfwidth)`. -/
noncomputable def compute_radial_mean_powerspectrum (power : ℕ → ℕ → ℝ)
    (xRes yRes : ℕ) : Except String (List (Option ℝ)) :=
  if xRes ≠ yRes then
    Except.error "We assume square images for radial mean power computation !!!"
  else
    Except.ok ((List.range (xRes / 2)).map (radialMeanBin power xRes yRes))

/-- Per-cell contribution to histogram bin `d` (real-valued part). -/
noncomputable def binPowerContrib (power : ℕ → ℕ → ℝ) (halfwidth d : ℕ)
    (rc : ℕ × ℕ) : ℝ :=
  if ¬ cellSkipped halfwidth rc.1 rc.2 ∧
     Nat.floor (cellDistance halfwidth rc.1 rc.2) = d
  then power rc.1 rc.2 else 0

/-- Per-cell contribution to counter bin `d`. -/
noncomputable def binCountContrib (halfwidth d : ℕ) (rc : ℕ × ℕ) : ℕ :=
  if ¬ cellSkipped halfwidth rc.1 rc.2 ∧
     Nat.floor (cellDistance halfwidth rc.1 rc.2) = d
  then 1 else 0

lemma radialStep_fst (power : ℕ → ℕ → ℝ) (halfwidth : ℕ)
    (acc : (ℕ → ℝ) × (ℕ → ℕ)) (rc : ℕ × ℕ) (d : ℕ) :
    (radialStep power halfwidth acc rc).1 d =
      acc.1 d + binPowerContrib power halfwidth d rc := by
  unfold radialStep binPowerContrib
  by_cases hs : cellSkipped halfwidth rc.1 rc.2
  · simp [hs]
  · by_cases hd : d = Nat.floor (cellDistance halfwidth rc.1 rc.2)
    · simp [hs, hd]
    · have hcond : ¬ (¬ cellSkipped halfwidth rc.1 rc.2 ∧
          Nat.floor (cellDistance halfwidth rc.1 rc.2) = d) := by
        intro h
        exact hd h.2.symm
      simp only [if_neg hs, if_neg hd, if_neg hcond, add_zero]

lemma radialStep_snd (power : ℕ → ℕ → ℝ) (halfwidth : ℕ)
    (acc : (ℕ → ℝ) × (ℕ → ℕ)) (rc : ℕ × ℕ) (d : ℕ) :
    (radialStep power halfwidth acc rc).2 d =
      acc.2 d + binCountContrib halfwidth d rc := by
  unfold radialStep binCountContrib
  by_cases hs : cellSkipped halfwidth rc.1 rc.2
  · simp [hs]
  · by_cases hd : d = Nat.floor (cellDistance halfwidth rc.1 rc.2)
    · simp [hs, hd]
    · have hcond : ¬ (¬ cellSkipped halfwidth rc.1 rc.2 ∧
          Nat.floor (cellDistance halfwidth rc.1 rc.2) = d) := by
        intro h
        exact hd h.2.symm
      simp only [if_neg hs, if_neg hd, if_neg hcond, add_zero]

lemma foldl_radialStep_fst (power : ℕ → ℕ → ℝ) (halfwidth : ℕ)
    (l : List (ℕ × ℕ)) (acc : (ℕ → ℝ) × (ℕ → ℕ)) (d : ℕ) :
    ((l.foldl (radialStep power halfwidth) acc).1 d) =
      acc.1 d + (l.map (binPowerContrib power halfwidth d)).sum := by
  induction l generalizing acc with
  | nil => simp
  | cons x xs ih =>
    rw [List.foldl_cons, ih, radialStep_fst]
    simp [add_assoc]

lemma foldl_radialStep_snd (power : ℕ → ℕ → ℝ) (halfwidth : ℕ)
    (l : List (ℕ × ℕ)) (acc : (ℕ → ℝ) × (ℕ → ℕ)) (d : ℕ) :
    ((l.foldl (radialStep power halfwidth) acc).2 d) =
      acc.2 d + (l.map (binCountContrib halfwidth d)).sum := by
  induction l generalizing acc with
  | nil => simp
  | cons x xs ih =>
    rw [List.foldl_cons, ih, radialStep_snd]
    simp [add_assoc]

lemma radialAccum_fst (power : ℕ → ℕ → ℝ) (xRes yRes d : ℕ) :
    (radialAccum power xRes yRes).1 d =
      ((gridCells xRes yRes).map (binPowerContrib power (xRes / 2) d)).sum := by
  unfold radialAccum
  rw [foldl_radialStep_fst]
  simp

lemma radialAccum_snd (power : ℕ → ℕ → ℝ) (xRes yRes d : ℕ) :
    (radialAccum power xRes yRes).2 d =
      ((gridCells xRes yRes).map (binCountContrib (xRes / 2) d)).sum := by
  unfold radialAccum
  rw [foldl_radialStep_snd]
  simp

lemma mem_gridCells {xRes yRes : ℕ} {rc : ℕ × ℕ}
    (h : rc ∈ gridCells xRes yRes) : rc.1 < yRes ∧ rc.2 < xRes := by
  unfold gridCells at h
  rw [List.mem_flatMap] at h
  obtain ⟨r, hr, hmap⟩ := h
  rw [List.mem_map] at hmap
  obtain ⟨c, hc, rfl⟩ := hmap
  exact ⟨List.mem_range.mp hr, List.mem_range.mp hc⟩

/-- On the center row, the cell `d` columns to the left of the center has
exact distance `d`. -/
lemma cellDistance_center_row (halfwidth d : ℕ) (hd : d ≤ halfwidth) :
    cellDistance halfwidth halfwidth (halfwidth - d) = d := by
  unfold cellDistance
  rw [Nat.cast_sub hd]
  have h1 : ((halfwidth : ℝ) - ((halfwidth : ℝ) - (d : ℝ))) *
        ((halfwidth : ℝ) - ((halfwidth : ℝ) - (d : ℝ))) +
      ((halfwidth : ℝ) - (halfwidth : ℝ)) * ((halfwidth : ℝ) - (halfwidth : ℝ)) =
      (d : ℝ) * (d : ℝ) := by ring
  rw [h1, Real.sqrt_mul_self (by positivity)]

lemma center_row_not_skipped (halfwidth d : ℕ) (hd : d < halfwidth) :
    ¬ cellSkipped halfwidth halfwidth (halfwidth - d) := by
  unfold cellSkipped
  rw [cellDistance_center_row halfwidth d hd.le, not_lt]
  have : (d : ℝ) + 1 ≤ (halfwidth : ℝ) := by exact_mod_cast hd
  linarith

lemma binCountContrib_center_row (halfwidth d : ℕ) (hd : d < halfwidth) :
    binCountContrib halfwidth d (halfwidth, halfwidth - d) = 1 := by
  have h1 := center_row_not_skipped halfwidth d hd
  have h2 : Nat.floor (cellDistance halfwidth halfwidth (halfwidth - d)) = d := by
    rw [cellDistance_center_row halfwidth d hd.le]
    exact Nat.floor_natCast d
  unfold binCountContrib
  rw [if_pos ⟨h1, h2⟩]

lemma center_row_mem_gridCells (R d : ℕ) (h2 : 2 ≤ R) (hd : d < R / 2) :
    ((R / 2 : ℕ), (R / 2 - d : ℕ)) ∈ gridCells R R := by
  unfold gridCells
  rw [List.mem_flatMap]
  refine ⟨R / 2, List.mem_range.mpr (Nat.div_lt_self (by omega) one_lt_two), ?_⟩
  exact List.mem_map.mpr ⟨R / 2 - d, List.mem_range.mpr (by omega), rfl⟩

/-- Every radial bin in `[0, R/2)` of an `R × R` grid receives at least
one cell: the cell `(R/2, R/2 - d)` on the center row has exact distance
`d`, is inside the histogram range, and falls in bin `d`. -/
lemma histoCounter_pos (power : ℕ → ℕ → ℝ) (R d : ℕ) (h2 : 2 ≤ R)
    (hd : d < R / 2) : 0 < (radialAccum power R R).2 d := by
  rw [radialAccum_snd]
  have hmem : (1 : ℕ) ∈ (gridCells R R).map (binCountContrib (R / 2) d) :=
    List.mem_map.mpr ⟨((R / 2 : ℕ), (R / 2 - d : ℕ)),
      center_row_mem_gridCells R d h2 hd,
      binCountContrib_center_row (R / 2) d hd⟩
  have hle := List.single_le_sum
    (l := (gridCells R R).map (binCountContrib (R / 2) d))
    (fun x _ => Nat.zero_le x) 1 hmem
  omega

/-- C9: in the radial reduction of the square `R × R` grid, no bin in
`[0, R/2)` has a zero cell count, so the unguarded division
`radialHistogram[i] /= histoCounter[i]` never divides by zero and every
output bin is a defined real value (never NaN). -/
theorem radial_bins_nonempty_defined (power : ℕ → ℕ → ℝ) (R : ℕ)
    (h2 : 2 ≤ R) (d : ℕ) (hd : d < R / 2) :
    (radialAccum power R R).2 d ≠ 0 ∧
      (radialMeanBin power R R d).isSome = true := by
  have hpos := histoCounter_pos power R d h2 hd
  refine ⟨by omega, ?_⟩
  unfold radialMeanBin
  rw [if_neg (by omega)]
  rfl

/-- C9 witness: at resolution 4, bin 1 has a nonzero count and a defined
mean. -/
theorem radial_bins_nonempty_defined_witness :
    2 ≤ 4 ∧ 1 < 4 / 2 ∧
      ((radialAccum (fun _ _ => (0 : ℝ)) 4 4).2 1 ≠ 0 ∧
        (radialMeanBin (fun _ _ => (0 : ℝ)) 4 4 1).isSome = true) :=
  ⟨by decide, by decide,
    radial_bins_nonempty_defined (fun _ _ => (0 : ℝ)) 4 (by decide) 1 (by decide)⟩

/-- C7: on a non-square grid, radial reduction fails fast with the fatal
error and produces no radial-profile output. -/
theorem radial_nonsquare_fatal (power : ℕ → ℕ → ℝ) (xRes yRes : ℕ)
    (hne : xRes ≠ yRes) :
    compute_radial_mean_powerspectrum power xRes yRes =
      Except.error "We assume square images for radial mean power computation !!!" := by
  unfold compute_radial_mean_powerspectrum
  rw [if_pos hne]

/-- C7 witness: a 512 × 256 spectrum is rejected. -/
theorem radial_nonsquare_fatal_witness :
    (512 : ℕ) ≠ 256 ∧
      compute_radial_mean_powerspectrum (fun _ _ => (0 : ℝ)) 512 256 =
        Except.error "We assume square images for radial mean power computation !!!" :=
  ⟨by decide, radial_nonsquare_fatal (fun _ _ => (0 : ℝ)) 512 256 (by decide)⟩

/-- C8: if the power spectrum equals `v` at every cell that is within the
histogram range (not skipped by the distance guard), then every radial
output bin in `[0, R/2)` equals `v` exactly. -/
theorem radial_constant_spectrum (power : ℕ → ℕ → ℝ) (v : ℝ) (R : ℕ)
    (h2 : 2 ≤ R)
    (hconst : ∀ r c, r < R → c < R → ¬ cellSkipped (R / 2) r c → power r c = v)
    (d : ℕ) (hd : d < R / 2) :
    radialMeanBin power R R d = some v := by
  have hmapeq : (gridCells R R).map (binPowerContrib power (R / 2) d) =
      (gridCells R R).map (fun rc => v * ((binCountContrib (R / 2) d rc : ℕ) : ℝ)) := by
    apply List.map_congr_left
    intro rc hrc
    obtain ⟨hr, hc⟩ := mem_gridCells hrc
    unfold binPowerContrib binCountContrib
    by_cases hcond : ¬ cellSkipped (R / 2) rc.1 rc.2 ∧
        Nat.floor (cellDistance (R / 2) rc.1 rc.2) = d
    · rw [if_pos hcond, if_pos hcond, hconst rc.1 rc.2 hr hc hcond.1]
      norm_num
    · rw [if_neg hcond, if_neg hcond]
      norm_num
  have hsum : (radialAccum power R R).1 d =
      v * ((radialAccum power R R).2 d : ℝ) := by
    rw [radialAccum_fst, radialAccum_snd, hmapeq, List.sum_map_mul_left]
    congr 1
    rw [Nat.cast_list_sum, List.map_map]
    rfl
  have hcnt := histoCounter_pos power R d h2 hd
  unfold radialMeanBin
  rw [if_neg (by omega), hsum]
  have hne : ((radialAccum power R R).2 d : ℝ) ≠ 0 :=
    Nat.cast_ne_zero.mpr (by omega)
  rw [mul_div_cancel_right₀ v hne]

/-- C8 witness: a spectrum constant 3 on a 4 × 4 grid gives bin 0 mean 3. -/
theorem radial_constant_spectrum_witness :
    2 ≤ 4 ∧ 0 < 4 / 2 ∧
      radialMeanBin (fun _ _ => (3 : ℝ)) 4 4 0 = some 3 :=
  ⟨by decide, by decide,
    radial_constant_spectrum (fun _ _ => (3 : ℝ)) 3 4 (by decide)
      (fun _ _ _ _ _ => rfl) 0 (by decide)⟩

/-- C5 counterexample: at `R = 4` (halfwidth 2) the cell `(r, c) = (1, 1)`
has unfloored distance `√2`, whose floor `1` does not exceed
`R/2 - 1 = 1`, so by the claim the cell would be binned; but the code's
guard compares the unfloored distance (`√2 > 1`) and skips it — the loop
step leaves both the histogram and the counters unchanged. -/
theorem radial_skip_floor_counterexample :
    Nat.floor (cellDistance 2 1 1) = 1 ∧
      cellSkipped 2 1 1 ∧
      radialStep (fun _ _ => (1 : ℝ)) 2 ((fun _ => 0), fun _ => 0) (1, 1) =
        ((fun _ => 0), fun _ => 0) := by
  have hdist : cellDistance 2 1 1 = Real.sqrt 2 := by
    unfold cellDistance
    norm_num
  have h1 : (1 : ℝ) < Real.sqrt 2 := by
    have h := Real.sqrt_lt_sqrt (by norm_num : (0 : ℝ) ≤ 1)
      (by norm_num : (1 : ℝ) < 2)
    rwa [Real.sqrt_one] at h
  have h2 : Real.sqrt 2 < 2 := by
    have h4 : Real.sqrt 4 = 2 := by
      rw [show (4 : ℝ) = 2 * 2 by norm_num,
        Real.sqrt_mul_self (by norm_num : (0 : ℝ) ≤ 2)]
    calc Real.sqrt 2 < Real.sqrt 4 :=
          Real.sqrt_lt_sqrt (by norm_num) (by norm_num)
      _ = 2 := h4
  have hskip : cellSkipped 2 1 1 := by
    unfold cellSkipped
    rw [hdist]
    push_cast
    linarith
  refine ⟨?_, hskip, ?_⟩
  · rw [hdist, Nat.floor_eq_iff (Real.sqrt_nonneg 2)]
    constructor
    · exact_mod_cast h1.le
    · push_cast
      linarith
  · unfold radialStep
    rw [if_pos hskip]

/-- C5 (amended): in the radial reduction of a square `R × R` power
spectrum with center `(R/2, R/2)`, a cell `(r, c)` is kept exactly when
its unfloored distance `sqrt((R/2 - c)² + (R/2 - r)²)` is at most
`R/2 - 1` (so cells with non-integer distance strictly between `R/2 - 1`
and `R/2` are excluded even though their floored bin index is `R/2 - 1`);
a kept cell adds its power to `histogram[⌊distance⌋]` and increments
`count[⌊distance⌋]`, and afterwards every bin `i ∈ [0, R/2)` is divided
by `count[i]`. -/
theorem radial_histogram_characterization (power : ℕ → ℕ → ℝ) (R d : ℕ)
    (hd : d < R / 2) :
    (radialAccum power R R).1 d =
      ((gridCells R R).map (fun rc =>
        if cellDistance (R / 2) rc.1 rc.2 ≤ ((R / 2 : ℕ) : ℝ) - 1 ∧
           Nat.floor (cellDistance (R / 2) rc.1 rc.2) = d
        then power rc.1 rc.2 else 0)).sum ∧
    (radialAccum power R R).2 d =
      ((gridCells R R).map (fun rc =>
        if cellDistance (R / 2) rc.1 rc.2 ≤ ((R / 2 : ℕ) : ℝ) - 1 ∧
           Nat.floor (cellDistance (R / 2) rc.1 rc.2) = d
        then 1 else 0)).sum ∧
    ((radialAccum power R R).2 d ≠ 0 →
      radialMeanBin power R R d =
        some ((radialAccum power R R).1 d /
              ((radialAccum power R R).2 d : ℝ))) := by
  have hiff : ∀ rc : ℕ × ℕ,
      (¬ cellSkipped (R / 2) rc.1 rc.2 ∧
        Nat.floor (cellDistance (R / 2) rc.1 rc.2) = d) ↔
      (cellDistance (R / 2) rc.1 rc.2 ≤ ((R / 2 : ℕ) : ℝ) - 1 ∧
        Nat.floor (cellDistance (R / 2) rc.1 rc.2) = d) := by
    intro rc
    unfold cellSkipped
    rw [not_lt]
  refine ⟨?_, ?_, ?_⟩
  · rw [radialAccum_fst]
    refine congrArg List.sum (List.map_congr_left ?_)
    intro rc _
    unfold binPowerContrib
    exact if_congr (hiff rc) rfl rfl
  · rw [radialAccum_snd]
    refine congrArg List.sum (List.map_congr_left ?_)
    intro rc _
    unfold binCountContrib
    exact if_congr (hiff rc) rfl rfl
  · intro hne
    unfold radialMeanBin
    rw [if_neg hne]

/-- C5 amended-claim witness: the characterization instantiated on a
2 × 2 grid with the zero spectrum at bin 0. -/
theorem radial_histogram_characterization_witness :
    0 < 2 / 2 ∧
      ((radialAccum (fun _ _ => (0 : ℝ)) 2 2).1 0 =
        ((gridCells 2 2).map (fun rc =>
          if cellDistance (2 / 2) rc.1 rc.2 ≤ ((2 / 2 : ℕ) : ℝ) - 1 ∧
             Nat.floor (cellDistance (2 / 2) rc.1 rc.2) = 0
          then (0 : ℝ) else 0)).sum ∧
      (radialAccum (fun _ _ => (0 : ℝ)) 2 2).2 0 =
        ((gridCells 2 2).map (fun rc =>
          if cellDistance (2 / 2) rc.1 rc.2 ≤ ((2 / 2 : ℕ) : ℝ) - 1 ∧
             Nat.floor (cellDistance (2 / 2) rc.1 rc.2) = 0
          then 1 else 0)).sum ∧
      ((radialAccum (fun _ _ => (0 : ℝ)) 2 2).2 0 ≠ 0 →
        radialMeanBin (fun _ _ => (0 : ℝ)) 2 2 0 =
          some ((radialAccum (fun _ _ => (0 : ℝ)) 2 2).1 0 /
                ((radialAccum (fun _ _ => (0 : ℝ)) 2 2).2 0 : ℝ)))) :=
  ⟨by decide, radial_histogram_characterization (fun _ _ => (0 : ℝ)) 2 0 (by decide)⟩

/-- The trial numbers `1, 2, ..., nTrials` iterated by
`for (int trial = 1; trial <= _nTrials; trial++)`. -/
def trialNumbers (nTrials : ℕ) : List ℕ :=
  (List.range nTrials).map (· + 1)

/-- Snapshot condition of `RunAnalysis`:
`if (trial == 1 || trial % _trialStepOut == 0)`. -/
def snapshotEmitted (trialStepOut trial : ℕ) : Bool :=
  trial == 1 || trial % trialStepOut == 0

/-- The trials of one sample count at which `RunAnalysis` emits a snapshot
(image plus radial profile). -/
def emittedTrials (nTrials trialStepOut : ℕ) : List ℕ :=
  (trialNumbers nTrials).filter (fun t => snapshotEmitted trialStepOut t)

/-- One trial of the accumulation loop of `RunAnalysis` at one cell array:
`powerAccum[index] += _powerSpectrum[index]`, where `P j t` is the power
spectrum computed in trial `t` of sample-count index `j` (the sampler is
external, so the per-trial spectra are abstracted as the family `P`). -/
def accumTrials (P : ℕ → ℕ → ℕ → ℝ) (j nTrials : ℕ) (acc : ℕ → ℝ) : ℕ → ℝ :=
  (trialNumbers nTrials).foldl (fun a t => fun i => a i + P j t i) acc

/-- State of `powerAccum` after all trials of the first `numDone` sample
counts.  The array is allocated zero-initialised once, before the
sample-count loop (`new float[_xRes * _yRes]()`), and is never cleared
inside the loop. -/
def accumAfterSamples (P : ℕ → ℕ → ℕ → ℝ) (nTrials numDone : ℕ) : ℕ → ℝ :=
  (List.range numDone).foldl (fun a j => accumTrials P j nTrials a)
    (fun _ => 0)

/-- State of `powerAccum` at the start of trial `t` (1-based) of
sample-count index `j`: all trials of sample counts `0, ..., j - 1` plus
trials `1, ..., t - 1` of sample count `j` have been accumulated. -/
def accumBeforeTrial (P : ℕ → ℕ → ℕ → ℝ) (nTrials j t : ℕ) : ℕ → ℝ :=
  (trialNumbers (t - 1)).foldl (fun a u => fun i => a i + P j u i)
    (accumAfterSamples P nTrials j)

/-- The mean written by `RunAnalysis` at a snapshot in trial `t` of
sample-count index `j`: `_powerSpectrum[index] = powerAccum[index] /
float(trial)` after this trial's spectrum has been added. -/
noncomputable def emittedMean (P : ℕ → ℕ → ℕ → ℝ) (nTrials j t : ℕ)
    (i : ℕ) : ℝ :=
  (accumBeforeTrial P nTrials j t i + P j t i) / (t : ℝ)

/-- C1: `powerAccum` is not reset between sample counts.  With two
configured sample counts, one trial each, and every per-trial power
spectrum equal to `1` at the inspected cell, the running sum at the start
of the second sample count's first trial is `1`, not `0`. -/
theorem accum_not_reset_between_sample_counts :
    accumBeforeTrial (fun _ _ _ => (1 : ℝ)) 1 1 1 0 = 1 ∧ (1 : ℝ) ≠ 0 := by
  constructor
  · unfold accumBeforeTrial accumAfterSamples accumTrials trialNumbers
    simp [List.range_succ]
  · norm_num

/-- C2: with two configured sample counts, one trial each, and every
per-trial power spectrum equal to `1` at the inspected cell, the mean
emitted at the second sample count's snapshot after trial 1 is `2`,
whereas the running average `(P₁)/1` of the spectra observed for that
sample count is `1`. -/
theorem emitted_mean_includes_previous_sample_counts :
    emittedMean (fun _ _ _ => (1 : ℝ)) 1 1 1 0 = 2 ∧
      ((trialNumbers 1).map (fun t => (fun _ _ _ => (1 : ℝ)) 1 t 0)).sum /
          ((1 : ℕ) : ℝ) = 1 ∧
      (2 : ℝ) ≠ 1 := by
  refine ⟨?_, ?_, by norm_num⟩
  · unfold emittedMean accumBeforeTrial accumAfterSamples accumTrials trialNumbers
    simp [List.range_succ]
    norm_num
  · unfold trialNumbers
    simp [List.range_succ]

/-- C6: for a positive snapshot interval, a trial `t` is in the emission
list of one sample count's loop exactly when `1 ≤ t ≤ nTrials` and `t` is
the first trial or a multiple of `trialStepOut`. -/
theorem snapshot_trials_iff (nTrials trialStepOut t : ℕ)
    (hstep : 1 ≤ trialStepOut) :
    t ∈ emittedTrials nTrials trialStepOut ↔
      (1 ≤ t ∧ t ≤ nTrials ∧ (t = 1 ∨ trialStepOut ∣ t)) := by
  unfold emittedTrials trialNumbers snapshotEmitted
  rw [List.mem_filter]
  constructor
  · rintro ⟨hmem, hcond⟩
    rw [List.mem_map] at hmem
    obtain ⟨u, hu, rfl⟩ := hmem
    have hub := List.mem_range.mp hu
    refine ⟨by omega, by omega, ?_⟩
    rcases Bool.or_eq_true_iff.mp hcond with h | h
    · exact Or.inl (eq_of_beq h)
    · exact Or.inr (Nat.dvd_iff_mod_eq_zero.mpr (eq_of_beq h))
  · rintro ⟨h1, h2, h3⟩
    constructor
    · rw [List.mem_map]
      exact ⟨t - 1, List.mem_range.mpr (by omega), by omega⟩
    · rcases h3 with h | h
      · subst h
        simp
      · have := Nat.dvd_iff_mod_eq_zero.mp h
        simp [this]

/-- C6 witness: with 5 trials and interval 2, trial 4 is emitted and the
equivalence holds there. -/
theorem snapshot_trials_iff_witness :
    1 ≤ 2 ∧
      (4 ∈ emittedTrials 5 2 ↔ (1 ≤ 4 ∧ 4 ≤ 5 ∧ (4 = 1 ∨ 2 ∣ 4))) :=
  ⟨by decide, snapshot_trials_iff 5 2 4 (by decide)⟩

/-- Analyzer state created by the `FourierAnalyzer` constructor: the
configuration fields are read from the command line by the external
parser, while the grid resolution is hard-coded to `_xRes = 512`,
`_yRes = 512`. -/
structure FourierAnalyzerState where
  nSamples : List ℤ
  nTrials : ℤ
  trialStepOut : ℤ
  frequencyStep : ℝ
  xRes : ℕ
  yRes : ℕ

/-- The `FourierAnalyzer` constructor. -/
def mkFourierAnalyzer (nSamples : List ℤ) (nTrials trialStepOut : ℤ)
    (frequencyStep : ℝ) : FourierAnalyzerState :=
  { nSamples := nSamples
    nTrials := nTrials
    trialStepOut := trialStepOut
    frequencyStep := frequencyStep
    xRes := 512
    yRes := 512 }

/-- C10: whatever configuration the constructor receives, the grid is
512 × 512, hence square, and the radial reduction called by the analysis
loop on this grid never takes the non-square fatal-error branch. -/
theorem resolution_always_512_square (nSamples : List ℤ)
    (nTrials trialStepOut : ℤ) (frequencyStep : ℝ) :
    (mkFourierAnalyzer nSamples nTrials trialStepOut frequencyStep).xRes = 512 ∧
    (mkFourierAnalyzer nSamples nTrials trialStepOut frequencyStep).yRes = 512 ∧
    ∀ power : ℕ → ℕ → ℝ,
      compute_radial_mean_powerspectrum power
          (mkFourierAnalyzer nSamples nTrials trialStepOut frequencyStep).xRes
          (mkFourierAnalyzer nSamples nTrials trialStepOut frequencyStep).yRes =
        Except.ok ((List.range 256).map (radialMeanBin power 512 512)) := by
  refine ⟨rfl, rfl, fun power => ?_⟩
  unfold compute_radial_mean_powerspectrum mkFourierAnalyzer
  norm_num
